import Mathlib

/-!
# Verification of the MAPIE conformal-regression core

This development embeds the conformal-interval aggregation and
adaptive-update procedure of the MAPIE regression component
(`MapieRegressor` / `MapieTimeSeriesRegressor`) and proves the
behavioural properties stated in its design specification.

The repository excerpt contains only the component's test harness
(`mapie/tests/test_regression.py`) and a usage example
(`examples/regression/3-scientific-articles/plot_zaffran2022_comparison.py`);
the implementation itself (`mapie/regression.py`,
`mapie/time_series_regression.py`) is not part of the excerpt.  The
definitions below are therefore modelled from the design
specification's description of the Residual Store, the Aggregator and
the Adaptive Updater, with real-valued quantities embedded as exact
rationals.
-/

namespace Mapie

/-- Sort a list of rationals into non-decreasing order. -/
def sortQ (xs : List ℚ) : List ℚ :=
  List.insertionSort (· ≤ ·) xs

theorem sortQ_sorted (xs : List ℚ) : List.Sorted (· ≤ ·) (sortQ xs) :=
  List.sorted_insertionSort _ xs

theorem sortQ_perm (xs : List ℚ) : (sortQ xs).Perm xs :=
  List.perm_insertionSort _ xs

theorem sortQ_length (xs : List ℚ) : (sortQ xs).length = xs.length :=
  (sortQ_perm xs).length_eq

theorem mem_sortQ {a : ℚ} {xs : List ℚ} : a ∈ sortQ xs ↔ a ∈ xs :=
  (sortQ_perm xs).mem_iff

theorem getD_eq_getElem {l : List ℚ} {i : ℕ} (h : i < l.length) (d : ℚ) :
    l.getD i d = l[i] := by
  simp [List.getD_eq_getElem?_getD, List.getElem?_eq_getElem h]

theorem sorted_getD_mono {s : List ℚ} (hs : List.Sorted (· ≤ ·) s) {i j : ℕ}
    (hij : i ≤ j) (hj : j < s.length) : s.getD i 0 ≤ s.getD j 0 := by
  rcases eq_or_lt_of_le hij with rfl | hlt
  · exact le_refl _
  · have hi : i < s.length := lt_trans hlt hj
    rw [getD_eq_getElem hi, getD_eq_getElem hj]
    exact List.pairwise_iff_getElem.mp hs i j hi hj hlt

theorem sortQ_getD_mem {xs : List ℚ} {i : ℕ} (h : i < xs.length) :
    (sortQ xs).getD i 0 ∈ xs := by
  have h' : i < (sortQ xs).length := by rw [sortQ_length]; exact h
  rw [getD_eq_getElem h']
  exact mem_sortQ.mp (List.getElem_mem h')

/-- Index used by the empirical quantile at level `q` over `n` sorted values,
"higher" interpolation: `⌈q·(n−1)⌉`, clamped into range. -/
def qIdxH (q : ℚ) (n : ℕ) : ℕ :=
  min (n - 1) (Int.toNat ⌈q * ((n - 1 : ℕ) : ℚ)⌉)

/-- Index used by the empirical quantile at level `q` over `n` sorted values,
"lower" interpolation: `⌊q·(n−1)⌋`, clamped into range. -/
def qIdxL (q : ℚ) (n : ℕ) : ℕ :=
  min (n - 1) (Int.toNat ⌊q * ((n - 1 : ℕ) : ℚ)⌋)

/-- Modelled from the spec: the "(1−α) empirical quantile" of a residual
list (`mapie/regression.py` is not in the excerpt).  Upper ("higher")
interpolation over the sorted values; the empty list yields `0`. -/
def quantileH (q : ℚ) (xs : List ℚ) : ℚ :=
  (sortQ xs).getD (qIdxH q xs.length) 0

/-- Modelled from the spec: the lower-tail counterpart of `quantileH`, used
for the lower candidate bounds of the "plus" method. -/
def quantileL (q : ℚ) (xs : List ℚ) : ℚ :=
  (sortQ xs).getD (qIdxL q xs.length) 0

theorem qIdxH_le (q : ℚ) (n : ℕ) : qIdxH q n ≤ n - 1 :=
  min_le_left _ _

theorem qIdxL_le (q : ℚ) (n : ℕ) : qIdxL q n ≤ n - 1 :=
  min_le_left _ _

theorem qIdxH_mono {q1 q2 : ℚ} (h : q1 ≤ q2) (n : ℕ) : qIdxH q1 n ≤ qIdxH q2 n := by
  refine min_le_min (le_refl _) ?_
  exact Int.toNat_le_toNat (Int.ceil_mono (mul_le_mul_of_nonneg_right h (Nat.cast_nonneg _)))

theorem qIdxL_mono {q1 q2 : ℚ} (h : q1 ≤ q2) (n : ℕ) : qIdxL q1 n ≤ qIdxL q2 n := by
  refine min_le_min (le_refl _) ?_
  exact Int.toNat_le_toNat (Int.floor_mono (mul_le_mul_of_nonneg_right h (Nat.cast_nonneg _)))

theorem qIdxH_lt {q : ℚ} {n : ℕ} (h : 0 < n) : qIdxH q n < n :=
  lt_of_le_of_lt (qIdxH_le _ _) (Nat.sub_lt h one_pos)

theorem qIdxL_lt {q : ℚ} {n : ℕ} (h : 0 < n) : qIdxL q n < n :=
  lt_of_le_of_lt (qIdxL_le _ _) (Nat.sub_lt h one_pos)

theorem sortQ_nil : sortQ [] = [] := rfl

theorem sortQ_eq_nil {xs : List ℚ} (h : xs.length = 0) : sortQ xs = [] :=
  List.length_eq_zero.mp (by rw [sortQ_length]; exact h)

theorem quantileH_mono {q1 q2 : ℚ} (h : q1 ≤ q2) (xs : List ℚ) :
    quantileH q1 xs ≤ quantileH q2 xs := by
  rcases Nat.eq_zero_or_pos xs.length with h0 | hpos
  · simp [quantileH, sortQ_eq_nil h0]
  · refine sorted_getD_mono (sortQ_sorted xs) (qIdxH_mono h _) ?_
    rw [sortQ_length]
    exact qIdxH_lt hpos

theorem quantileL_mono {q1 q2 : ℚ} (h : q1 ≤ q2) (xs : List ℚ) :
    quantileL q1 xs ≤ quantileL q2 xs := by
  rcases Nat.eq_zero_or_pos xs.length with h0 | hpos
  · simp [quantileL, sortQ_eq_nil h0]
  · refine sorted_getD_mono (sortQ_sorted xs) (qIdxL_mono h _) ?_
    rw [sortQ_length]
    exact qIdxL_lt hpos

theorem quantileH_mem {q : ℚ} {xs : List ℚ} (h : xs ≠ []) : quantileH q xs ∈ xs := by
  have hpos : 0 < xs.length := List.length_pos.mpr h
  exact sortQ_getD_mem (qIdxH_lt hpos)

theorem quantileL_mem {q : ℚ} {xs : List ℚ} (h : xs ≠ []) : quantileL q xs ∈ xs := by
  have hpos : 0 < xs.length := List.length_pos.mpr h
  exact sortQ_getD_mem (qIdxL_lt hpos)

theorem quantileH_nonneg {xs : List ℚ} (h : ∀ a ∈ xs, 0 ≤ a) (q : ℚ) :
    0 ≤ quantileH q xs := by
  rcases eq_or_ne xs [] with rfl | hne
  · simp [quantileH, sortQ]
  · exact h _ (quantileH_mem hne)

/-- Smallest value of a list (first element after sorting; `0` when empty). -/
def minQ (xs : List ℚ) : ℚ :=
  (sortQ xs).getD 0 0

/-- Largest value of a list (last element after sorting; `0` when empty). -/
def maxQ (xs : List ℚ) : ℚ :=
  (sortQ xs).getD (xs.length - 1) 0

theorem minQ_le_mem {xs : List ℚ} {a : ℚ} (ha : a ∈ xs) : minQ xs ≤ a := by
  obtain ⟨i, hi, rfl⟩ := List.getElem_of_mem (mem_sortQ.mpr ha)
  rw [minQ, ← getD_eq_getElem hi]
  exact sorted_getD_mono (sortQ_sorted xs) (Nat.zero_le _) hi

theorem le_maxQ_mem {xs : List ℚ} {a : ℚ} (ha : a ∈ xs) : a ≤ maxQ xs := by
  obtain ⟨i, hi, rfl⟩ := List.getElem_of_mem (mem_sortQ.mpr ha)
  rw [maxQ, ← getD_eq_getElem hi]
  have hi' : i ≤ xs.length - 1 := by
    have := hi
    rw [sortQ_length] at this
    omega
  refine sorted_getD_mono (sortQ_sorted xs) hi' ?_
  rw [sortQ_length]
  have : 0 < xs.length := by
    have := hi
    rw [sortQ_length] at this
    omega
  omega

/-- Arithmetic mean of a list of rationals (`0` when empty). -/
def meanQ (xs : List ℚ) : ℚ :=
  xs.sum / xs.length

/-- Median of a list of rationals: middle element of the sorted list for odd
length, average of the two middle elements for even length. -/
def medianQ (xs : List ℚ) : ℚ :=
  if xs.length % 2 = 1 then (sortQ xs).getD ((xs.length - 1) / 2) 0
  else ((sortQ xs).getD (xs.length / 2 - 1) 0 + (sortQ xs).getD (xs.length / 2) 0) / 2

theorem minQ_le_meanQ {xs : List ℚ} (h : xs ≠ []) : minQ xs ≤ meanQ xs := by
  have hpos : 0 < (xs.length : ℚ) := by
    have := List.length_pos.mpr h
    exact_mod_cast this
  rw [meanQ, le_div_iff₀ hpos]
  have hle := List.card_nsmul_le_sum xs (minQ xs) (fun a ha => minQ_le_mem ha)
  calc minQ xs * xs.length = xs.length • minQ xs := by
        rw [nsmul_eq_mul, mul_comm]
    _ ≤ xs.sum := hle

theorem meanQ_le_maxQ {xs : List ℚ} (h : xs ≠ []) : meanQ xs ≤ maxQ xs := by
  have hpos : 0 < (xs.length : ℚ) := by
    have := List.length_pos.mpr h
    exact_mod_cast this
  rw [meanQ, div_le_iff₀ hpos]
  have hle := List.sum_le_card_nsmul xs (maxQ xs) (fun a ha => le_maxQ_mem ha)
  calc xs.sum ≤ xs.length • maxQ xs := hle
    _ = maxQ xs * xs.length := by rw [nsmul_eq_mul, mul_comm]

theorem sortQ_getD_le_medianQ {xs : List ℚ} (h : xs ≠ []) :
    (sortQ xs).getD ((xs.length - 1) / 2) 0 ≤ medianQ xs := by
  have hpos : 0 < xs.length := List.length_pos.mpr h
  rw [medianQ]
  rcases Nat.even_or_odd xs.length with he | ho
  · have hmod : xs.length % 2 = 0 := Nat.even_iff.mp he
    rw [if_neg (by omega)]
    have hidx : (xs.length - 1) / 2 = xs.length / 2 - 1 := by omega
    have hlt : xs.length / 2 < (sortQ xs).length := by rw [sortQ_length]; omega
    have hstep : (sortQ xs).getD (xs.length / 2 - 1) 0 ≤ (sortQ xs).getD (xs.length / 2) 0 :=
      sorted_getD_mono (sortQ_sorted xs) (by omega) hlt
    rw [hidx]
    linarith
  · have hmod : xs.length % 2 = 1 := Nat.odd_iff.mp ho
    rw [if_pos hmod]

theorem medianQ_le_sortQ_getD {xs : List ℚ} (h : xs ≠ []) :
    medianQ xs ≤ (sortQ xs).getD (xs.length / 2) 0 := by
  have hpos : 0 < xs.length := List.length_pos.mpr h
  rw [medianQ]
  rcases Nat.even_or_odd xs.length with he | ho
  · have hmod : xs.length % 2 = 0 := Nat.even_iff.mp he
    rw [if_neg (by omega)]
    have hlt : xs.length / 2 < (sortQ xs).length := by rw [sortQ_length]; omega
    have hstep : (sortQ xs).getD (xs.length / 2 - 1) 0 ≤ (sortQ xs).getD (xs.length / 2) 0 :=
      sorted_getD_mono (sortQ_sorted xs) (by omega) hlt
    linarith
  · have hmod : xs.length % 2 = 1 := Nat.odd_iff.mp ho
    rw [if_pos hmod]
    have : (xs.length - 1) / 2 = xs.length / 2 := by omega
    rw [this]

theorem sortQ_getD_const {xs : List ℚ} {c : ℚ} (h : ∀ a ∈ xs, a = c) {i : ℕ}
    (hi : i < xs.length) : (sortQ xs).getD i 0 = c :=
  h _ (sortQ_getD_mem hi)

theorem meanQ_const {xs : List ℚ} {c : ℚ} (h : ∀ a ∈ xs, a = c) (hne : xs ≠ []) :
    meanQ xs = c := by
  have hpos : 0 < (xs.length : ℚ) := by
    have := List.length_pos.mpr hne
    exact_mod_cast this
  have hsum : xs.sum = xs.length • c := by
    refine le_antisymm ?_ ?_
    · exact List.sum_le_card_nsmul xs c (fun a ha => le_of_eq (h a ha))
    · exact List.card_nsmul_le_sum xs c (fun a ha => ge_of_eq (h a ha))
  rw [meanQ, hsum, nsmul_eq_mul, mul_comm, mul_div_assoc, div_self (ne_of_gt hpos), mul_one]

theorem medianQ_const {xs : List ℚ} {c : ℚ} (h : ∀ a ∈ xs, a = c) (hne : xs ≠ []) :
    medianQ xs = c := by
  have hpos : 0 < xs.length := List.length_pos.mpr hne
  rw [medianQ]
  rcases Nat.even_or_odd xs.length with he | ho
  · have hmod : xs.length % 2 = 0 := Nat.even_iff.mp he
    rw [if_neg (by omega)]
    rw [sortQ_getD_const h (by omega), sortQ_getD_const h (by omega)]
    ring
  · have hmod : xs.length % 2 = 1 := Nat.odd_iff.mp ho
    rw [if_pos hmod]
    exact sortQ_getD_const h (by omega)

theorem minQ_const {xs : List ℚ} {c : ℚ} (h : ∀ a ∈ xs, a = c) (hne : xs ≠ []) :
    minQ xs = c := by
  have hpos : 0 < xs.length := List.length_pos.mpr hne
  exact sortQ_getD_const h hpos

theorem maxQ_const {xs : List ℚ} {c : ℚ} (h : ∀ a ∈ xs, a = c) (hne : xs ≠ []) :
    maxQ xs = c := by
  have hpos : 0 < xs.length := List.length_pos.mpr hne
  exact sortQ_getD_const h (by omega)

theorem minQ_le_medianQ {xs : List ℚ} (h : xs ≠ []) : minQ xs ≤ medianQ xs := by
  have hpos : 0 < xs.length := List.length_pos.mpr h
  refine le_trans ?_ (sortQ_getD_le_medianQ h)
  exact sorted_getD_mono (sortQ_sorted xs) (Nat.zero_le _) (by rw [sortQ_length]; omega)

theorem medianQ_le_maxQ {xs : List ℚ} (h : xs ≠ []) : medianQ xs ≤ maxQ xs := by
  have hpos : 0 < xs.length := List.length_pos.mpr h
  refine le_trans (medianQ_le_sortQ_getD h) ?_
  exact sorted_getD_mono (sortQ_sorted xs) (by omega) (by rw [sortQ_length]; omega)

theorem sortQ_map_add (c : ℚ) (xs : List ℚ) :
    sortQ (xs.map (fun t => c + t)) = (sortQ xs).map (fun t => c + t) := by
  refine List.eq_of_perm_of_sorted ?_ (sortQ_sorted _) ?_
  · exact (sortQ_perm _).trans ((sortQ_perm xs).map _).symm
  · exact List.Pairwise.map _ (fun a b hab => by linarith) (sortQ_sorted xs)

theorem sortQ_map_neg (xs : List ℚ) :
    sortQ (xs.map (fun t => -t)) = ((sortQ xs).map (fun t => -t)).reverse := by
  refine List.eq_of_perm_of_sorted ?_ (sortQ_sorted _) ?_
  · exact (sortQ_perm _).trans ((((sortQ_perm xs).map _).symm).trans (List.reverse_perm _).symm)
  · rw [List.Sorted, List.pairwise_reverse]
    exact List.Pairwise.map _ (fun a b hab => by simpa using hab) (sortQ_sorted xs)

theorem quantileH_map_add (c : ℚ) {xs : List ℚ} (h : xs ≠ []) (q : ℚ) :
    quantileH q (xs.map (fun t => c + t)) = c + quantileH q xs := by
  have hpos : 0 < xs.length := List.length_pos.mpr h
  have hlt : qIdxH q xs.length < (sortQ xs).length := by rw [sortQ_length]; exact qIdxH_lt hpos
  have hlt' : qIdxH q xs.length < ((sortQ xs).map (fun t => c + t)).length := by
    rw [List.length_map]; exact hlt
  rw [quantileH, quantileH, List.length_map, sortQ_map_add, getD_eq_getElem hlt',
    getD_eq_getElem hlt, List.getElem_map]

theorem quantileL_map_add (c : ℚ) {xs : List ℚ} (h : xs ≠ []) (q : ℚ) :
    quantileL q (xs.map (fun t => c + t)) = c + quantileL q xs := by
  have hpos : 0 < xs.length := List.length_pos.mpr h
  have hlt : qIdxL q xs.length < (sortQ xs).length := by rw [sortQ_length]; exact qIdxL_lt hpos
  have hlt' : qIdxL q xs.length < ((sortQ xs).map (fun t => c + t)).length := by
    rw [List.length_map]; exact hlt
  rw [quantileL, quantileL, List.length_map, sortQ_map_add, getD_eq_getElem hlt',
    getD_eq_getElem hlt, List.getElem_map]

theorem qIdx_reflect {q : ℚ} {n : ℕ} (hn : 0 < n) (h0 : 0 ≤ q) (h1 : q ≤ 1) :
    n - 1 - qIdxL q n = qIdxH (1 - q) n := by
  have hm0 : (0 : ℚ) ≤ ((n - 1 : ℕ) : ℚ) := Nat.cast_nonneg _
  have hf0 : 0 ≤ ⌊q * ((n - 1 : ℕ) : ℚ)⌋ :=
    Int.floor_nonneg.mpr (mul_nonneg h0 hm0)
  have hfm : ⌊q * ((n - 1 : ℕ) : ℚ)⌋ ≤ ((n - 1 : ℕ) : ℤ) := by
    have hle : q * ((n - 1 : ℕ) : ℚ) ≤ ((n - 1 : ℕ) : ℚ) :=
      mul_le_of_le_one_left hm0 h1
    calc ⌊q * ((n - 1 : ℕ) : ℚ)⌋ ≤ ⌊((n - 1 : ℕ) : ℚ)⌋ := Int.floor_mono hle
      _ = ((n - 1 : ℕ) : ℤ) := Int.floor_natCast _
  have hceil : ⌈(1 - q) * ((n - 1 : ℕ) : ℚ)⌉ = ((n - 1 : ℕ) : ℤ) - ⌊q * ((n - 1 : ℕ) : ℚ)⌋ := by
    have hrw : (1 - q) * ((n - 1 : ℕ) : ℚ) = -(q * ((n - 1 : ℕ) : ℚ)) + (((n - 1 : ℕ) : ℤ) : ℚ) := by
      push_cast
      ring
    rw [hrw, Int.ceil_add_int, Int.ceil_neg]
    ring
  rw [qIdxL, qIdxH, hceil]
  omega

theorem getD_reverse {l : List ℚ} {i : ℕ} (h : i < l.length) :
    l.reverse.getD i 0 = l.getD (l.length - 1 - i) 0 := by
  have h1 : i < l.reverse.length := by rw [List.length_reverse]; exact h
  have h2 : l.length - 1 - i < l.length := by omega
  rw [getD_eq_getElem h1, getD_eq_getElem h2, List.getElem_reverse]

theorem getD_map {f : ℚ → ℚ} {l : List ℚ} {i : ℕ} (h : i < l.length) (d d' : ℚ) :
    (l.map f).getD i d = f (l.getD i d') := by
  have h1 : i < (l.map f).length := by rw [List.length_map]; exact h
  rw [getD_eq_getElem h1, getD_eq_getElem h, List.getElem_map]

theorem quantileL_map_neg {xs : List ℚ} (h : xs ≠ []) {q : ℚ} (h0 : 0 ≤ q) (h1 : q ≤ 1) :
    quantileL q (xs.map (fun t => -t)) = -quantileH (1 - q) xs := by
  have hpos : 0 < xs.length := List.length_pos.mpr h
  have hltL : qIdxL q xs.length < (List.map (fun t => -t) (sortQ xs)).length := by
    rw [List.length_map, sortQ_length]; exact qIdxL_lt hpos
  have hltH : qIdxH (1 - q) xs.length < (sortQ xs).length := by
    rw [sortQ_length]; exact qIdxH_lt hpos
  rw [quantileL, quantileH, List.length_map, sortQ_map_neg, getD_reverse hltL,
    List.length_map, sortQ_length, qIdx_reflect hpos h0 h1,
    getD_map (by rw [sortQ_length]; exact qIdxH_lt hpos) 0 0]

theorem sorted_count_of_getD {v : ℚ} :
    ∀ {s : List ℚ}, List.Sorted (· ≤ ·) s → ∀ {k : ℕ}, k < s.length →
      s.getD k 0 ≤ v → k + 1 ≤ List.countP (fun t => decide (t ≤ v)) s := by
  intro s
  induction s with
  | nil =>
    intro _ k hk
    simp at hk
  | cons a t ih =>
    intro hs k hk hle
    rw [List.sorted_cons] at hs
    match k with
    | 0 =>
      have ha : a ≤ v := by simpa using hle
      have hd : decide (a ≤ v) = true := decide_eq_true ha
      rw [List.countP_cons, hd]
      simp
    | k + 1 =>
      have hk' : k < t.length := by simpa using hk
      have hle' : t.getD k 0 ≤ v := by simpa using hle
      have hcount := ih hs.2 hk' hle'
      have ha : a ≤ v := by
        refine le_trans (hs.1 _ ?_) hle'
        rw [getD_eq_getElem hk']
        exact List.getElem_mem hk'
      have hd : decide (a ≤ v) = true := decide_eq_true ha
      rw [List.countP_cons, hd]
      simp only [if_true, eq_self_iff_true]
      omega

theorem sorted_getD_of_count {v : ℚ} :
    ∀ {s : List ℚ}, List.Sorted (· ≤ ·) s → ∀ {k : ℕ},
      k + 1 ≤ List.countP (fun t => decide (t ≤ v)) s → s.getD k 0 ≤ v := by
  intro s
  induction s with
  | nil =>
    intro _ k hk
    simp at hk
  | cons a t ih =>
    intro hs k hcount
    rw [List.sorted_cons] at hs
    by_cases hav : a ≤ v
    · match k with
      | 0 => simpa using hav
      | k + 1 =>
        rw [List.countP_cons] at hcount
        have : k + 1 ≤ List.countP (fun t => decide (t ≤ v)) t := by
          by_cases h' : decide (a ≤ v) = true <;> simp [h'] at hcount <;> omega
        simpa using ih hs.2 this
    · exfalso
      have hzero : List.countP (fun t => decide (t ≤ v)) (a :: t) = 0 := by
        rw [List.countP_eq_zero]
        intro b hb
        rcases List.mem_cons.mp hb with rfl | hbt
        · simpa using hav
        · have : a ≤ b := hs.1 _ hbt
          simp only [decide_eq_true_eq]
          intro hbv
          exact hav (le_trans this hbv)
      omega

theorem countP_le_of_pointwise {v : ℚ} :
    ∀ {xs ys : List ℚ}, xs.length = ys.length →
      (∀ i, i < xs.length → xs.getD i 0 ≤ ys.getD i 0) →
      List.countP (fun t => decide (t ≤ v)) ys ≤ List.countP (fun t => decide (t ≤ v)) xs := by
  intro xs
  induction xs with
  | nil =>
    intro ys hlen _
    have h0 : ys.length = 0 := by simpa using hlen.symm
    have : ys = [] := List.length_eq_zero.mp h0
    subst this
    simp
  | cons x xs ih =>
    intro ys hlen hdom
    match ys with
    | y :: ys' =>
      have hxy : x ≤ y := by simpa using hdom 0 (by simp)
      have hlen' : xs.length = ys'.length := by simpa using hlen
      have hdom' : ∀ i, i < xs.length → xs.getD i 0 ≤ ys'.getD i 0 := by
        intro i hi
        simpa using hdom (i + 1) (by simpa using Nat.succ_lt_succ hi)
      have hrec := ih hlen' hdom'
      rw [List.countP_cons, List.countP_cons]
      by_cases hyv : y ≤ v
      · have hxv : x ≤ v := le_trans hxy hyv
        rw [decide_eq_true hyv, decide_eq_true hxv]
        simp only [if_true, eq_self_iff_true]
        omega
      · rw [decide_eq_false hyv]
        simp only [Bool.false_eq_true, if_neg, not_false_eq_true]
        omega

theorem sortQ_getD_le_of_pointwise {xs ys : List ℚ} (hlen : xs.length = ys.length)
    (hdom : ∀ i, i < xs.length → xs.getD i 0 ≤ ys.getD i 0) {k : ℕ} (hk : k < xs.length) :
    (sortQ xs).getD k 0 ≤ (sortQ ys).getD k 0 := by
  set v := (sortQ ys).getD k 0 with hv
  have hky : k < (sortQ ys).length := by rw [sortQ_length]; omega
  have hcy : k + 1 ≤ List.countP (fun t => decide (t ≤ v)) (sortQ ys) :=
    sorted_count_of_getD (sortQ_sorted ys) hky (le_refl _)
  have hcy' : k + 1 ≤ List.countP (fun t => decide (t ≤ v)) ys := by
    rwa [(sortQ_perm ys).countP_eq] at hcy
  have hcx : k + 1 ≤ List.countP (fun t => decide (t ≤ v)) xs :=
    le_trans hcy' (countP_le_of_pointwise hlen hdom)
  have hcx' : k + 1 ≤ List.countP (fun t => decide (t ≤ v)) (sortQ xs) := by
    rwa [(sortQ_perm xs).countP_eq]
  exact sorted_getD_of_count (sortQ_sorted xs) hcx'

/-- Modelled from the spec: one entry of the Residual Store — a held-out
conformity score together with the prediction function of the fold
estimator that did not see the associated training sample
(`mapie/regression.py` is not in the excerpt). -/
structure ResidualRecord where
  pred : ℚ → ℚ
  score : ℚ

/-- Modelled from the spec: the state of a fitted regressor — the single
full-data (or prefit) estimator's prediction function and the residual
records collected from the folds. -/
structure FittedState where
  singlePred : ℚ → ℚ
  records : List ResidualRecord

/-- Held-out conformity scores of all residual records. -/
def FittedState.scores (st : FittedState) : List ℚ :=
  st.records.map ResidualRecord.score

/-- Per-record fold-estimator predictions at a query point (the columns of
the "multi" prediction matrix). -/
def FittedState.multiPreds (st : FittedState) (x : ℚ) : List ℚ :=
  st.records.map (fun r => r.pred x)

/-- Candidate lower bounds of the "plus" method: each record's
fold-estimator prediction minus its conformity score. -/
def FittedState.lowCands (st : FittedState) (x : ℚ) : List ℚ :=
  st.records.map (fun r => r.pred x - r.score)

/-- Candidate upper bounds of the "plus" method: each record's
fold-estimator prediction plus its conformity score. -/
def FittedState.upCands (st : FittedState) (x : ℚ) : List ℚ :=
  st.records.map (fun r => r.pred x + r.score)

/-- Modelled from the spec: the ensemble point prediction — mean or median
across the fold-estimator predictions, or the single full-data estimator's
prediction when no aggregation function is configured. -/
def pointPrediction (agg : Option String) (st : FittedState) (x : ℚ) : ℚ :=
  match agg with
  | Option.none => st.singlePred x
  | Option.some s =>
    if s = "mean" then meanQ (st.multiPreds x)
    else if s = "median" then medianQ (st.multiPreds x)
    else st.singlePred x

/-- Modelled from the spec: the Aggregator's interval rule for one query
point and one miscoverage level `a`, per conformal method:
`naive` centres at the single estimator's prediction, `base` at the
ensemble point prediction, both with half-width the `(1−a)` quantile of the
held-out scores; `plus` takes tail quantiles of the per-record candidate
bounds; `minmax` spans from the smallest to the largest fold prediction,
widened by the score quantile.  Returns the pair `(lower, upper)`. -/
def intervalBounds (method : String) (agg : Option String) (st : FittedState)
    (x : ℚ) (a : ℚ) : ℚ × ℚ :=
  if method = "naive" then
    (st.singlePred x - quantileH (1 - a) st.scores,
     st.singlePred x + quantileH (1 - a) st.scores)
  else if method = "base" then
    (pointPrediction agg st x - quantileH (1 - a) st.scores,
     pointPrediction agg st x + quantileH (1 - a) st.scores)
  else if method = "plus" then
    (quantileL a (st.lowCands x), quantileH (1 - a) (st.upCands x))
  else
    (minQ (st.multiPreds x) - quantileH (1 - a) st.scores,
     maxQ (st.multiPreds x) + quantileH (1 - a) st.scores)

/-- Modelled from the spec: `predict` over a batch of `N` query points and
`K` miscoverage levels — an `(N,)` vector of point predictions together
with, per query point, the `K` pairs of lower and upper interval bounds
(the `(N, 2, K)` container, with the middle dimension as the pair). -/
def predict (method : String) (agg : Option String) (st : FittedState)
    (xs : List ℚ) (alphas : List ℚ) : List ℚ × List (List (ℚ × ℚ)) :=
  (xs.map (pointPrediction agg st),
   xs.map (fun x => alphas.map (intervalBounds method agg st x)))

/-- The validation-error taxonomy of the specification. -/
inductive MapieError where
  | invalidMethod
  | invalidAggregation
  | invalidCV
  | notFitted
deriving DecidableEq

/-- The non-fatal warnings of the specification. -/
inductive MapieWarning where
  | insufficientResamplings
  | noAggFunction
deriving DecidableEq

/-- The user-supplied cross-validation parameter. -/
inductive CVParam where
  | defaultCV
  | folds (k : ℤ)
  | kfold (k : ℕ)
  | loo
  | subsample (nResamplings : ℕ)
  | prefit
  | invalid
deriving DecidableEq

/-- A conformal method name is valid when it is one of the four recognised
methods. -/
def validMethod (m : String) : Bool :=
  m = "naive" || m = "base" || m = "plus" || m = "minmax"

/-- An aggregation-function name is valid when absent, `"mean"` or
`"median"`. -/
def validAggFunction (agg : Option String) : Bool :=
  match agg with
  | Option.none => true
  | Option.some s => s = "mean" || s = "median"

/-- A cv parameter is valid when it is the default, `-1` or an integer of at
least 2, a K-fold or leave-one-out splitter, a subsample resampler, or the
prefit sentinel. -/
def validCV : CVParam → Bool
  | CVParam.folds k => k = -1 || 2 ≤ k
  | CVParam.invalid => false
  | _ => true

/-- Whether the cv parameter is a resampling scheme. -/
def isResampling : CVParam → Bool
  | CVParam.subsample _ => true
  | _ => false

/-- The configurable parameters of a regressor. -/
structure MapieParams where
  method : String
  agg_function : Option String
  cv : CVParam

/-- Modelled from the spec: eager parameter validation — the first
validation error among method, aggregation function and cv, if any. -/
def validationError (p : MapieParams) : Option MapieError :=
  if ¬ validMethod p.method then Option.some MapieError.invalidMethod
  else if ¬ validAggFunction p.agg_function then Option.some MapieError.invalidAggregation
  else if ¬ validCV p.cv then Option.some MapieError.invalidCV
  else Option.none

/-- Split a list into contiguous chunks of `size + 1` elements (the last
chunk may be shorter). -/
def chunkList {α : Type} (size : ℕ) : List α → List (List α)
  | [] => []
  | x :: rest => (x :: rest.take size) :: chunkList size (rest.drop size)
termination_by xs => xs.length
decreasing_by
  simp only [List.length_drop, List.length_cons]
  omega

theorem chunkList_flatten_aux {α : Type} (size : ℕ) :
    ∀ (n : ℕ) (xs : List α), xs.length ≤ n → (chunkList size xs).flatten = xs := by
  intro n
  induction n with
  | zero =>
    intro xs h
    have : xs = [] := List.length_eq_zero.mp (Nat.le_zero.mp h)
    subst this
    simp [chunkList]
  | succ n ih =>
    intro xs h
    match xs with
    | [] => simp [chunkList]
    | x :: rest =>
      rw [chunkList, List.flatten_cons,
        ih (rest.drop size) (by simp only [List.length_drop]; simp at h; omega)]
      simp [List.take_append_drop]

theorem chunkList_flatten {α : Type} (size : ℕ) (xs : List α) :
    (chunkList size xs).flatten = xs :=
  chunkList_flatten_aux size xs.length xs (le_refl _)

/-- Modelled from the spec: the parallel map-executor — the work list is
split into one contiguous chunk per worker, each worker maps `f` over its
chunk independently (no shared mutable state), and the per-worker results
are concatenated back in order. -/
def parMap {α β : Type} (nJobs : ℕ) (f : α → β) (xs : List α) : List β :=
  ((chunkList (xs.length / max 1 nJobs) xs).map (List.map f)).flatten

theorem parMap_eq_map {α β : Type} (nJobs : ℕ) (f : α → β) (xs : List α) :
    parMap nJobs f xs = xs.map f := by
  rw [parMap, ← List.map_flatten, chunkList_flatten]

/-- Modelled from the spec: `fit` — validate the parameters eagerly, then
fit the folds (in parallel across `nJobs` workers), collect the per-sample
held-out residual records (a record is absent when no resampling left the
sample out), warn on insufficient resamplings or on a missing aggregation
function with a resampling cv, and store the present records.  `foldFit`
abstracts the fitting of one fold task; it runs only after validation
succeeds. -/
def fit {τ : Type} (p : MapieParams) (nJobs : ℕ)
    (foldFit : τ → List (Option ResidualRecord)) (tasks : List τ)
    (single : ℚ → ℚ) : Except MapieError (FittedState × List MapieWarning) :=
  match validationError p with
  | Option.some e => Except.error e
  | Option.none =>
    let perSample := (parMap nJobs foldFit tasks).flatten
    let warns :=
      (if isResampling p.cv && perSample.any Option.isNone then
        [MapieWarning.insufficientResamplings] else [])
      ++ (if isResampling p.cv && p.agg_function.isNone then
        [MapieWarning.noAggFunction] else [])
    Except.ok (⟨single, perSample.filterMap id⟩, warns)

/-- Modelled from the spec: the Adaptive Updater's state — the current
effective level and the history of miscoverage indicators. -/
structure ConformityState where
  currentAlpha : ℚ
  missHistory : List ℚ

/-- Modelled from the spec: the miscoverage indicator — `1` when the
realized value falls outside the issued interval, `0` otherwise. -/
def miscoverageIndicator (lo hi y : ℚ) : ℚ :=
  if y < lo ∨ hi < y then 1 else 0

/-- Clamp a level into the unit range (the spec's "clipped to (0, 1)"). -/
def clipUnit (x : ℚ) : ℚ :=
  max 0 (min 1 x)

/-- Modelled from the spec: one step of the Adaptive Conformal Inference
control loop (`adapt_conformal_inference` of
`mapie/time_series_regression.py`, which is not in the excerpt): observe a
realized value against the previously issued interval, then move the
effective level by `gamma` times the target-minus-error feedback, clipped
into the unit range. -/
def adapt_conformal_inference (cs : ConformityState) (alphaTarget gamma lo hi y : ℚ) :
    ConformityState :=
  ⟨clipUnit (cs.currentAlpha + gamma * (alphaTarget - miscoverageIndicator lo hi y)),
   miscoverageIndicator lo hi y :: cs.missHistory⟩

theorem validMethod_cases {m : String} (h : validMethod m = true) :
    m = "naive" ∨ m = "base" ∨ m = "plus" ∨ m = "minmax" := by
  simp only [validMethod, Bool.or_eq_true, decide_eq_true_eq] at h
  tauto

theorem fit_error {τ : Type} (p : MapieParams) (nJobs : ℕ)
    (foldFit : τ → List (Option ResidualRecord)) (tasks : List τ) (single : ℚ → ℚ)
    (e : MapieError) (hval : validationError p = Option.some e) :
    fit p nJobs foldFit tasks single = Except.error e := by
  unfold fit
  rw [hval]

theorem fit_ok {τ : Type} (p : MapieParams) (nJobs : ℕ)
    (foldFit : τ → List (Option ResidualRecord)) (tasks : List τ) (single : ℚ → ℚ)
    (hval : validationError p = Option.none) :
    fit p nJobs foldFit tasks single = Except.ok
      (⟨single, (parMap nJobs foldFit tasks).flatten.filterMap id⟩,
       (if isResampling p.cv && (parMap nJobs foldFit tasks).flatten.any Option.isNone then
          [MapieWarning.insufficientResamplings] else [])
        ++ (if isResampling p.cv && p.agg_function.isNone then
          [MapieWarning.noAggFunction] else [])) := by
  unfold fit
  rw [hval]

/-- C3: each adaptive (ACI) step updates the effective level by the rule
`err = 1` when the realized value lies outside the issued interval and `0`
otherwise, and `α' = α + γ·(α_target − err)` clipped into the unit range,
so the resulting level always lies between `0` and `1`. -/
theorem aci_update_rule (cs : ConformityState) (alphaTarget gamma lo hi y : ℚ) :
    (adapt_conformal_inference cs alphaTarget gamma lo hi y).currentAlpha
        = clipUnit (cs.currentAlpha
            + gamma * (alphaTarget - (if lo ≤ y ∧ y ≤ hi then 0 else 1)))
      ∧ 0 ≤ (adapt_conformal_inference cs alphaTarget gamma lo hi y).currentAlpha
      ∧ (adapt_conformal_inference cs alphaTarget gamma lo hi y).currentAlpha ≤ 1 := by
  refine ⟨?_, le_max_left _ _, max_le (by norm_num) (min_le_left _ _)⟩
  simp only [adapt_conformal_inference, miscoverageIndicator]
  by_cases h : lo ≤ y ∧ y ≤ hi
  · rw [if_pos h, if_neg (by push_neg; exact h)]
  · rw [if_neg h, if_pos ?_]
    rcases not_and_or.mp h with h' | h'
    · exact Or.inl (not_le.mp h')
    · exact Or.inr (not_le.mp h')

/-- C4: for `N` query points and `K` requested miscoverage levels, `predict`
returns an `(N,)` point-prediction vector and an interval container with
`N` rows of `K` lower/upper pairs each (the `(N, 2, K)` shape, the middle
dimension being the bound pair). -/
theorem predict_output_shape (method : String) (agg : Option String) (st : FittedState)
    (xs : List ℚ) (alphas : List ℚ) :
    (predict method agg st xs alphas).1.length = xs.length ∧
    (predict method agg st xs alphas).2.length = xs.length ∧
    (predict method agg st xs alphas).2.map List.length
      = List.replicate xs.length alphas.length := by
  refine ⟨by simp [predict], by simp [predict], ?_⟩
  simp only [predict, List.map_map, Function.comp_def, List.length_map]
  exact List.map_const' xs alphas.length ▸ rfl

/-- C5: the fitted state, and hence every point prediction and interval
bound produced by `predict` from it, is identical whether fold fitting is
executed with one worker or with any other worker count. -/
theorem results_independent_of_jobs {τ : Type} (p : MapieParams) (nJobs : ℕ)
    (foldFit : τ → List (Option ResidualRecord)) (tasks : List τ) (single : ℚ → ℚ)
    (xs alphas : List ℚ) :
    fit p nJobs foldFit tasks single = fit p 1 foldFit tasks single ∧
    (fit p nJobs foldFit tasks single).map
        (fun r => predict p.method p.agg_function r.1 xs alphas)
      = (fit p 1 foldFit tasks single).map
        (fun r => predict p.method p.agg_function r.1 xs alphas) := by
  have hfit : fit p nJobs foldFit tasks single = fit p 1 foldFit tasks single := by
    unfold fit
    rw [parMap_eq_map, parMap_eq_map]
  exact ⟨hfit, by rw [hfit]⟩

/-- C6: an unrecognized method, aggregation-function or cv value makes
`fit` return the corresponding validation error, for every fold-fitting
function and every task list alike — validation happens before any fold
fitting, and the error result carries no fitted state. -/
theorem eager_validation_errors {τ : Type} (p : MapieParams) (nJobs : ℕ)
    (foldFit : τ → List (Option ResidualRecord)) (tasks : List τ) (single : ℚ → ℚ) :
    (validMethod p.method = false →
      fit p nJobs foldFit tasks single = Except.error MapieError.invalidMethod) ∧
    (validMethod p.method = true → validAggFunction p.agg_function = false →
      fit p nJobs foldFit tasks single = Except.error MapieError.invalidAggregation) ∧
    (validMethod p.method = true → validAggFunction p.agg_function = true →
      validCV p.cv = false →
      fit p nJobs foldFit tasks single = Except.error MapieError.invalidCV) := by
  refine ⟨fun h1 => ?_, fun h1 h2 => ?_, fun h1 h2 h3 => ?_⟩
  · exact fit_error p nJobs foldFit tasks single _ (by simp [validationError, h1])
  · exact fit_error p nJobs foldFit tasks single _ (by simp [validationError, h1, h2])
  · exact fit_error p nJobs foldFit tasks single _ (by simp [validationError, h1, h2, h3])

/-- Witness for C6 at concrete invalid parameter values. -/
theorem eager_validation_errors_witness :
    (validMethod "jackknife" = false ∧
      fit ⟨"jackknife", Option.none, CVParam.defaultCV⟩ 1 (fun _ : Unit => []) []
          (fun _ => 0) = Except.error MapieError.invalidMethod) ∧
    (validMethod "plus" = true ∧ validAggFunction (Option.some "dummy") = false ∧
      fit ⟨"plus", Option.some "dummy", CVParam.defaultCV⟩ 1 (fun _ : Unit => []) []
          (fun _ => 0) = Except.error MapieError.invalidAggregation) ∧
    (validCV (CVParam.folds 1) = false ∧
      fit ⟨"plus", Option.none, CVParam.folds 1⟩ 1 (fun _ : Unit => []) []
          (fun _ => 0) = Except.error MapieError.invalidCV) := by
  refine ⟨⟨by decide, ?_⟩, ⟨by decide, by decide, ?_⟩, ⟨by decide, ?_⟩⟩
  · exact (eager_validation_errors _ 1 _ [] _).1 (by decide)
  · exact (eager_validation_errors _ 1 _ [] _).2.1 (by decide) (by decide)
  · exact (eager_validation_errors _ 1 _ [] _).2.2 (by decide) (by decide) (by decide)

/-- C7: a `predict` request carrying the same miscoverage level twice
returns identical bound pairs in the two corresponding columns, for every
query point. -/
theorem duplicate_alpha_identical_bounds (method : String) (agg : Option String)
    (st : FittedState) (xs : List ℚ) (a : ℚ) :
    ((predict method agg st xs [a, a]).2).map (fun row => row.getD 0 (0, 0))
      = ((predict method agg st xs [a, a]).2).map (fun row => row.getD 1 (0, 0)) := by
  simp [predict, List.map_map, Function.comp_def, List.getD]

/-- C8: with valid parameters and a resampling cv, `fit` completes (returns
a fitted state rather than an error); when some training sample is left
with no held-out residual the insufficient-resamplings warning is emitted
and the missing records are excluded from the stored residuals; a missing
aggregation function likewise only adds a warning. -/
theorem resampling_warn_not_abort {τ : Type} (p : MapieParams) (nJobs : ℕ)
    (foldFit : τ → List (Option ResidualRecord)) (tasks : List τ) (single : ℚ → ℚ)
    (hval : validationError p = Option.none) (hres : isResampling p.cv = true) :
    ∃ st warns, fit p nJobs foldFit tasks single = Except.ok (st, warns) ∧
      st.records = (parMap nJobs foldFit tasks).flatten.filterMap id ∧
      ((parMap nJobs foldFit tasks).flatten.any Option.isNone = true →
        MapieWarning.insufficientResamplings ∈ warns) ∧
      (p.agg_function = Option.none → MapieWarning.noAggFunction ∈ warns) := by
  refine ⟨_, _, fit_ok p nJobs foldFit tasks single hval, rfl, fun h => ?_, fun h => ?_⟩
  · rw [hres, h]
    simp
  · rw [hres, h]
    simp

/-- Witness for C8: a one-resampling subsample fit where the single task
leaves one sample with no held-out residual and one with a record. -/
theorem resampling_warn_not_abort_witness :
    validationError ⟨"plus", Option.none, CVParam.subsample 1⟩ = Option.none ∧
    isResampling (CVParam.subsample 1) = true ∧
    ∃ st warns,
      fit ⟨"plus", Option.none, CVParam.subsample 1⟩ 1
          (fun _ : Unit => [Option.none, Option.some (⟨fun _ => 0, 1⟩ : ResidualRecord)]) [()]
          (fun _ => 0) = Except.ok (st, warns) ∧
      st.records = (parMap 1
          (fun _ : Unit => [Option.none, Option.some (⟨fun _ => 0, 1⟩ : ResidualRecord)])
          [()]).flatten.filterMap id ∧
      ((parMap 1
          (fun _ : Unit => [Option.none, Option.some (⟨fun _ => 0, 1⟩ : ResidualRecord)])
          [()]).flatten.any Option.isNone = true →
        MapieWarning.insufficientResamplings ∈ warns) ∧
      ((⟨"plus", Option.none, CVParam.subsample 1⟩ : MapieParams).agg_function = Option.none →
        MapieWarning.noAggFunction ∈ warns) :=
  ⟨by decide, by decide,
    resampling_warn_not_abort ⟨"plus", Option.none, CVParam.subsample 1⟩ 1
      (fun _ : Unit => [Option.none, Option.some (⟨fun _ => 0, 1⟩ : ResidualRecord)]) [()]
      (fun _ => 0) (by decide) (by decide)⟩

theorem intervalBounds_naive (agg : Option String) (st : FittedState) (x a : ℚ) :
    intervalBounds "naive" agg st x a
      = (st.singlePred x - quantileH (1 - a) st.scores,
         st.singlePred x + quantileH (1 - a) st.scores) := rfl

theorem intervalBounds_base (agg : Option String) (st : FittedState) (x a : ℚ) :
    intervalBounds "base" agg st x a
      = (pointPrediction agg st x - quantileH (1 - a) st.scores,
         pointPrediction agg st x + quantileH (1 - a) st.scores) := rfl

theorem intervalBounds_plus (agg : Option String) (st : FittedState) (x a : ℚ) :
    intervalBounds "plus" agg st x a
      = (quantileL a (st.lowCands x), quantileH (1 - a) (st.upCands x)) := rfl

theorem intervalBounds_minmax (agg : Option String) (st : FittedState) (x a : ℚ) :
    intervalBounds "minmax" agg st x a
      = (minQ (st.multiPreds x) - quantileH (1 - a) st.scores,
         maxQ (st.multiPreds x) + quantileH (1 - a) st.scores) := rfl

/-- C2: when two miscoverage levels `a1 < a2` are requested, the returned
bounds are nested for every valid method: the lower bound at `a1` is at
most the lower bound at `a2`, and the upper bound at `a2` is at most the
upper bound at `a1`. -/
theorem ordered_alpha_nested_bounds (m : String) (agg : Option String) (st : FittedState)
    (x : ℚ) (a1 a2 : ℚ) (hm : validMethod m = true) (h12 : a1 < a2) :
    (intervalBounds m agg st x a1).1 ≤ (intervalBounds m agg st x a2).1 ∧
    (intervalBounds m agg st x a2).2 ≤ (intervalBounds m agg st x a1).2 := by
  have hq : quantileH (1 - a2) st.scores ≤ quantileH (1 - a1) st.scores :=
    quantileH_mono (by linarith) _
  have hqL : quantileL a1 (st.lowCands x) ≤ quantileL a2 (st.lowCands x) :=
    quantileL_mono (le_of_lt h12) _
  have hqU : quantileH (1 - a2) (st.upCands x) ≤ quantileH (1 - a1) (st.upCands x) :=
    quantileH_mono (by linarith) _
  rcases validMethod_cases hm with rfl | rfl | rfl | rfl
  · rw [intervalBounds_naive, intervalBounds_naive]
    exact ⟨by dsimp only; linarith, by dsimp only; linarith⟩
  · rw [intervalBounds_base, intervalBounds_base]
    exact ⟨by dsimp only; linarith, by dsimp only; linarith⟩
  · rw [intervalBounds_plus, intervalBounds_plus]
    exact ⟨by dsimp only; linarith, by dsimp only; linarith⟩
  · rw [intervalBounds_minmax, intervalBounds_minmax]
    exact ⟨by dsimp only; linarith, by dsimp only; linarith⟩

/-- Witness for C2 at the "plus" method, a singleton residual store and
levels `1/20 < 1/10`. -/
theorem ordered_alpha_nested_bounds_witness :
    validMethod "plus" = true ∧ ((1 : ℚ)/20 < 1/10) ∧
    ((intervalBounds "plus" Option.none
          (⟨fun _ => 0, [(⟨fun _ => 1, 1⟩ : ResidualRecord)]⟩ : FittedState) 0 (1/20)).1
        ≤ (intervalBounds "plus" Option.none
          (⟨fun _ => 0, [(⟨fun _ => 1, 1⟩ : ResidualRecord)]⟩ : FittedState) 0 (1/10)).1 ∧
      (intervalBounds "plus" Option.none
          (⟨fun _ => 0, [(⟨fun _ => 1, 1⟩ : ResidualRecord)]⟩ : FittedState) 0 (1/10)).2
        ≤ (intervalBounds "plus" Option.none
          (⟨fun _ => 0, [(⟨fun _ => 1, 1⟩ : ResidualRecord)]⟩ : FittedState) 0 (1/20)).2) :=
  ⟨by decide, by norm_num,
    ordered_alpha_nested_bounds "plus" Option.none
      (⟨fun _ => 0, [(⟨fun _ => 1, 1⟩ : ResidualRecord)]⟩ : FittedState) 0 (1/20) (1/10)
      (by decide) (by norm_num)⟩

/-- C10 counterexample: with a constant fitted state (every fold and the
single estimator predict 5), switching the aggregation function between
"median" and none leaves the point predictions identical, so the claimed
change in point predictions does not occur. -/
theorem agg_change_point_counterexample :
    (predict "plus" (Option.some "median")
        (⟨fun _ => 5, [(⟨fun _ => 5, 0⟩ : ResidualRecord)]⟩ : FittedState) [0] [1/10]).1
      = (predict "plus" Option.none
        (⟨fun _ => 5, [(⟨fun _ => 5, 0⟩ : ResidualRecord)]⟩ : FittedState) [0] [1/10]).1 := by
  simp [predict, pointPrediction, medianQ, FittedState.multiPreds, sortQ,
    List.insertionSort, List.orderedInsert]

/-- C10 (amended): for methods "plus" and "minmax" the returned interval
bounds are entirely independent of the aggregation-function choice (the
point predictions follow the chosen aggregation and so may — but need not —
differ). -/
theorem bounds_independent_of_agg (m : String) (hm : m = "plus" ∨ m = "minmax")
    (g1 g2 : Option String) (st : FittedState) (xs alphas : List ℚ) :
    (predict m g1 st xs alphas).2 = (predict m g2 st xs alphas).2 := by
  rcases hm with rfl | rfl
  · simp only [predict]
    refine List.map_congr_left (fun x _ => ?_)
    refine List.map_congr_left (fun a _ => ?_)
    rw [intervalBounds_plus, intervalBounds_plus]
  · simp only [predict]
    refine List.map_congr_left (fun x _ => ?_)
    refine List.map_congr_left (fun a _ => ?_)
    rw [intervalBounds_minmax, intervalBounds_minmax]

/-- Witness for C10's amended statement at the "plus" method. -/
theorem bounds_independent_of_agg_witness :
    (("plus" : String) = "plus" ∨ ("plus" : String) = "minmax") ∧
    (predict "plus" (Option.some "median")
        (⟨fun _ => 0, [(⟨fun _ => 1, 1⟩ : ResidualRecord)]⟩ : FittedState) [0] [1/10]).2
      = (predict "plus" Option.none
        (⟨fun _ => 0, [(⟨fun _ => 1, 1⟩ : ResidualRecord)]⟩ : FittedState) [0] [1/10]).2 :=
  ⟨Or.inl rfl,
    bounds_independent_of_agg "plus" (Or.inl rfl) (Option.some "median") Option.none
      (⟨fun _ => 0, [(⟨fun _ => 1, 1⟩ : ResidualRecord)]⟩ : FittedState) [0] [1/10]⟩

theorem getD_map_general {α : Type} {f : α → ℚ} {l : List α} {i : ℕ} (h : i < l.length)
    (d : ℚ) : (l.map f).getD i d = f l[i] := by
  have h1 : i < (l.map f).length := by rw [List.length_map]; exact h
  rw [getD_eq_getElem h1, List.getElem_map]

theorem quantileL_le_of_pointwise {xs ys : List ℚ} (hlen : xs.length = ys.length)
    (hdom : ∀ i, i < xs.length → xs.getD i 0 ≤ ys.getD i 0) (q : ℚ) :
    quantileL q xs ≤ quantileL q ys := by
  rcases Nat.eq_zero_or_pos xs.length with h0 | hpos
  · rw [quantileL, quantileL, sortQ_eq_nil h0, sortQ_eq_nil (by omega)]
    simp
  · rw [quantileL, quantileL, ← hlen]
    exact sortQ_getD_le_of_pointwise hlen hdom (qIdxL_lt hpos)

theorem quantileH_le_of_pointwise {xs ys : List ℚ} (hlen : xs.length = ys.length)
    (hdom : ∀ i, i < xs.length → xs.getD i 0 ≤ ys.getD i 0) (q : ℚ) :
    quantileH q xs ≤ quantileH q ys := by
  rcases Nat.eq_zero_or_pos xs.length with h0 | hpos
  · rw [quantileH, quantileH, sortQ_eq_nil h0, sortQ_eq_nil (by omega)]
    simp
  · rw [quantileH, quantileH, ← hlen]
    exact sortQ_getD_le_of_pointwise hlen hdom (qIdxH_lt hpos)

theorem quantileL_le_medianQ {xs : List ℚ} (hne : xs ≠ []) {a : ℚ} (ha : a ≤ 1/2) :
    quantileL a xs ≤ medianQ xs := by
  have hpos : 0 < xs.length := List.length_pos.mpr hne
  refine le_trans ?_ (sortQ_getD_le_medianQ hne)
  refine sorted_getD_mono (sortQ_sorted xs) ?_ (by rw [sortQ_length]; omega)
  refine le_trans (min_le_right _ _) ?_
  have hlt : ⌊a * ((xs.length - 1 : ℕ) : ℚ)⌋ < (((xs.length - 1) / 2 : ℕ) : ℤ) + 1 := by
    rw [Int.floor_lt, Int.cast_add, Int.cast_natCast, Int.cast_one]
    have h1 : a * ((xs.length - 1 : ℕ) : ℚ) ≤ ((xs.length - 1 : ℕ) : ℚ) / 2 := by
      nlinarith [Nat.cast_nonneg (α := ℚ) (xs.length - 1)]
    have hn : (xs.length - 1 : ℕ) ≤ 2 * ((xs.length - 1) / 2) + 1 := by omega
    have h2 : ((xs.length - 1 : ℕ) : ℚ) ≤ 2 * (((xs.length - 1) / 2 : ℕ) : ℚ) + 1 := by
      exact_mod_cast (Nat.cast_le (α := ℚ)).mpr hn
    linarith
  omega

theorem medianQ_le_quantileH {xs : List ℚ} (hne : xs ≠ []) {a : ℚ} (ha : a ≤ 1/2) :
    medianQ xs ≤ quantileH (1 - a) xs := by
  have hpos : 0 < xs.length := List.length_pos.mpr hne
  refine le_trans (medianQ_le_sortQ_getD hne) ?_
  refine sorted_getD_mono (sortQ_sorted xs) ?_ (by rw [sortQ_length]; exact qIdxH_lt hpos)
  refine le_min (by omega) ?_
  have h2 : ((xs.length / 2 : ℕ) : ℚ) - 1 < (1 - a) * ((xs.length - 1 : ℕ) : ℚ) := by
    have hm : ((xs.length - 1 : ℕ) : ℚ) / 2 ≤ (1 - a) * ((xs.length - 1 : ℕ) : ℚ) := by
      nlinarith [Nat.cast_nonneg (α := ℚ) (xs.length - 1)]
    have hdiv : 2 * (xs.length / 2) ≤ xs.length := by omega
    have hc1 : 2 * ((xs.length / 2 : ℕ) : ℚ) ≤ (xs.length : ℚ) := by
      exact_mod_cast (Nat.cast_le (α := ℚ)).mpr hdiv
    have hc2 : ((xs.length - 1 : ℕ) : ℚ) = (xs.length : ℚ) - 1 := by
      rw [Nat.cast_sub hpos]
      norm_num
    linarith [hm, hc1, hc2]
  have hlt : ((xs.length / 2 : ℕ) : ℤ) - 1 < ⌈(1 - a) * ((xs.length - 1 : ℕ) : ℚ)⌉ := by
    refine Int.lt_ceil.mpr ?_
    rw [Int.cast_sub, Int.cast_natCast, Int.cast_one]
    exact h2
  omega

theorem multiPreds_const {st : FittedState} (hpre : ∀ r ∈ st.records, r.pred = st.singlePred)
    (x : ℚ) : ∀ t ∈ st.multiPreds x, t = st.singlePred x := by
  intro t ht
  obtain ⟨r, hr, rfl⟩ := List.mem_map.mp ht
  rw [hpre r hr]

theorem multiPreds_ne_nil {st : FittedState} (hne : st.records ≠ []) (x : ℚ) :
    st.multiPreds x ≠ [] := by
  simp [FittedState.multiPreds, hne]

theorem scores_ne_nil {st : FittedState} (hne : st.records ≠ []) : st.scores ≠ [] := by
  simp [FittedState.scores, hne]

theorem pointPrediction_const {st : FittedState}
    (hpre : ∀ r ∈ st.records, r.pred = st.singlePred) (hne : st.records ≠ [])
    (agg : Option String) (x : ℚ) : pointPrediction agg st x = st.singlePred x := by
  match agg with
  | Option.none => rfl
  | Option.some s =>
    simp only [pointPrediction]
    by_cases hs : s = "mean"
    · rw [if_pos hs]
      exact meanQ_const (multiPreds_const hpre x) (multiPreds_ne_nil hne x)
    · rw [if_neg hs]
      by_cases hs2 : s = "median"
      · rw [if_pos hs2]
        exact medianQ_const (multiPreds_const hpre x) (multiPreds_ne_nil hne x)
      · rw [if_neg hs2]

theorem lowCands_eq {st : FittedState} (hpre : ∀ r ∈ st.records, r.pred = st.singlePred)
    (x : ℚ) : st.lowCands x
      = (st.scores.map (fun t => -t)).map (fun t => st.singlePred x + t) := by
  rw [FittedState.lowCands, FittedState.scores, List.map_map, List.map_map]
  refine List.map_congr_left (fun r hr => ?_)
  simp only [Function.comp_def]
  rw [hpre r hr]
  ring

theorem upCands_eq {st : FittedState} (hpre : ∀ r ∈ st.records, r.pred = st.singlePred)
    (x : ℚ) : st.upCands x = st.scores.map (fun t => st.singlePred x + t) := by
  rw [FittedState.upCands, FittedState.scores, List.map_map]
  refine List.map_congr_left (fun r hr => ?_)
  simp only [Function.comp_def]
  rw [hpre r hr]

theorem intervalBounds_prefit (m : String) (agg : Option String) (st : FittedState)
    (x a : ℚ) (hm : validMethod m = true)
    (hpre : ∀ r ∈ st.records, r.pred = st.singlePred) (hne : st.records ≠ [])
    (h0 : 0 ≤ a) (h1 : a ≤ 1) :
    intervalBounds m agg st x a
      = (st.singlePred x - quantileH (1 - a) st.scores,
         st.singlePred x + quantileH (1 - a) st.scores) := by
  have hsne : st.scores ≠ [] := scores_ne_nil hne
  have hnegne : st.scores.map (fun t => -t) ≠ [] := by simpa using hsne
  rcases validMethod_cases hm with rfl | rfl | rfl | rfl
  · exact intervalBounds_naive agg st x a
  · rw [intervalBounds_base, pointPrediction_const hpre hne]
  · rw [intervalBounds_plus, lowCands_eq hpre, upCands_eq hpre,
      quantileL_map_add _ hnegne, quantileL_map_neg hsne h0 h1,
      quantileH_map_add _ hsne, ← sub_eq_add_neg]
  · rw [intervalBounds_minmax, minQ_const (multiPreds_const hpre x) (multiPreds_ne_nil hne x),
      maxQ_const (multiPreds_const hpre x) (multiPreds_ne_nil hne x)]

/-- C9: when the fitted state has the `cv="prefit"` shape — residual records
all carry the single pre-fitted estimator as their predictor — the
configured conformal method has no effect: any two valid methods yield
identical interval bounds from `predict`. -/
theorem prefit_ignores_method (m1 m2 : String) (agg : Option String) (st : FittedState)
    (xs alphas : List ℚ) (hm1 : validMethod m1 = true) (hm2 : validMethod m2 = true)
    (hpre : ∀ r ∈ st.records, r.pred = st.singlePred) (hne : st.records ≠ [])
    (halphas : ∀ a ∈ alphas, 0 ≤ a ∧ a ≤ 1) :
    (predict m1 agg st xs alphas).2 = (predict m2 agg st xs alphas).2 := by
  simp only [predict]
  refine List.map_congr_left (fun x _ => ?_)
  refine List.map_congr_left (fun a ha => ?_)
  rw [intervalBounds_prefit m1 agg st x a hm1 hpre hne (halphas a ha).1 (halphas a ha).2,
    intervalBounds_prefit m2 agg st x a hm2 hpre hne (halphas a ha).1 (halphas a ha).2]

/-- Witness for C9: a prefit-shaped state compared between the "naive" and
"plus" methods at level 1/10. -/
theorem prefit_ignores_method_witness :
    validMethod "naive" = true ∧ validMethod "plus" = true ∧
    (∀ r ∈ (⟨fun _ => 3, [(⟨fun _ => 3, 1⟩ : ResidualRecord)]⟩ : FittedState).records,
      r.pred = (⟨fun _ => 3, [(⟨fun _ => 3, 1⟩ : ResidualRecord)]⟩ : FittedState).singlePred) ∧
    (⟨fun _ => 3, [(⟨fun _ => 3, 1⟩ : ResidualRecord)]⟩ : FittedState).records ≠ [] ∧
    (∀ a ∈ ([1/10] : List ℚ), 0 ≤ a ∧ a ≤ 1) ∧
    (predict "naive" Option.none
        (⟨fun _ => 3, [(⟨fun _ => 3, 1⟩ : ResidualRecord)]⟩ : FittedState) [0] [1/10]).2
      = (predict "plus" Option.none
        (⟨fun _ => 3, [(⟨fun _ => 3, 1⟩ : ResidualRecord)]⟩ : FittedState) [0] [1/10]).2 := by
  refine ⟨by decide, by decide, ?_, by simp, ?_, ?_⟩
  · intro r hr
    rw [List.mem_singleton.mp hr]
  · intro a ha
    rw [List.mem_singleton.mp ha]
    norm_num
  · exact prefit_ignores_method "naive" "plus" Option.none
      (⟨fun _ => 3, [(⟨fun _ => 3, 1⟩ : ResidualRecord)]⟩ : FittedState) [0] [1/10]
      (by decide) (by decide)
      (fun r hr => by rw [List.mem_singleton.mp hr])
      (by simp)
      (fun a ha => by rw [List.mem_singleton.mp ha]; norm_num)

/-- C1 (amended): the point prediction lies within the returned interval
for the "naive" method in its fitted shape (every record's predictor is the
single estimator), for the "base" method under any aggregation, for the
"minmax" method under mean or median aggregation, and for the "plus" method
under median aggregation at levels `a ≤ 1/2`; conformity scores are
nonnegative. -/
theorem point_within_interval (m : String) (agg : Option String) (st : FittedState)
    (x a : ℚ) (hne : st.records ≠ []) (hscore : ∀ r ∈ st.records, 0 ≤ r.score)
    (hcase :
      (m = "naive" ∧ ∀ r ∈ st.records, r.pred = st.singlePred) ∨
      m = "base" ∨
      (m = "minmax" ∧ (agg = Option.some "mean" ∨ agg = Option.some "median")) ∨
      (m = "plus" ∧ agg = Option.some "median" ∧ a ≤ 1/2)) :
    (intervalBounds m agg st x a).1 ≤ pointPrediction agg st x ∧
    pointPrediction agg st x ≤ (intervalBounds m agg st x a).2 := by
  have hsnn : ∀ s ∈ st.scores, 0 ≤ s := by
    intro s hs
    obtain ⟨r, hr, rfl⟩ := List.mem_map.mp hs
    exact hscore r hr
  have hq : 0 ≤ quantileH (1 - a) st.scores := quantileH_nonneg hsnn _
  have hmne : st.multiPreds x ≠ [] := multiPreds_ne_nil hne x
  rcases hcase with ⟨rfl, hpre⟩ | rfl | ⟨rfl, hagg⟩ | ⟨rfl, rfl, hhalf⟩
  · rw [intervalBounds_naive, pointPrediction_const hpre hne]
    exact ⟨by dsimp only; linarith, by dsimp only; linarith⟩
  · rw [intervalBounds_base]
    exact ⟨by dsimp only; linarith, by dsimp only; linarith⟩
  · have hmin : minQ (st.multiPreds x) ≤ pointPrediction agg st x := by
      rcases hagg with rfl | rfl
      · exact minQ_le_meanQ hmne
      · exact minQ_le_medianQ hmne
    have hmax : pointPrediction agg st x ≤ maxQ (st.multiPreds x) := by
      rcases hagg with rfl | rfl
      · exact meanQ_le_maxQ hmne
      · exact medianQ_le_maxQ hmne
    rw [intervalBounds_minmax]
    exact ⟨by dsimp only; linarith, by dsimp only; linarith⟩
  · have hpoint : pointPrediction (Option.some "median") st x = medianQ (st.multiPreds x) := rfl
    have hlenL : (st.lowCands x).length = (st.multiPreds x).length := by
      simp [FittedState.lowCands, FittedState.multiPreds]
    have hdomL : ∀ i, i < (st.lowCands x).length →
        (st.lowCands x).getD i 0 ≤ (st.multiPreds x).getD i 0 := by
      intro i hi
      have hi' : i < st.records.length := by
        simpa [FittedState.lowCands] using hi
      rw [FittedState.lowCands, FittedState.multiPreds, getD_map_general hi',
        getD_map_general hi']
      exact sub_le_self _ (hscore _ (List.getElem_mem hi'))
    have hlenU : (st.multiPreds x).length = (st.upCands x).length := by
      simp [FittedState.upCands, FittedState.multiPreds]
    have hdomU : ∀ i, i < (st.multiPreds x).length →
        (st.multiPreds x).getD i 0 ≤ (st.upCands x).getD i 0 := by
      intro i hi
      have hi' : i < st.records.length := by
        simpa [FittedState.multiPreds] using hi
      rw [FittedState.upCands, FittedState.multiPreds, getD_map_general hi',
        getD_map_general hi']
      exact le_add_of_nonneg_right (hscore _ (List.getElem_mem hi'))
    have hlow : quantileL a (st.lowCands x) ≤ medianQ (st.multiPreds x) :=
      le_trans (quantileL_le_of_pointwise hlenL hdomL a) (quantileL_le_medianQ hmne hhalf)
    have hup : medianQ (st.multiPreds x) ≤ quantileH (1 - a) (st.upCands x) :=
      le_trans (medianQ_le_quantileH hmne hhalf) (quantileH_le_of_pointwise hlenU hdomU _)
    rw [intervalBounds_plus, hpoint]
    exact ⟨by dsimp only; linarith, by dsimp only; linarith⟩

/-- Witness for C1's amended statement at the "base" method with a
singleton residual store. -/
theorem point_within_interval_witness :
    ((⟨fun _ => 2, [(⟨fun _ => 2, 1⟩ : ResidualRecord)]⟩ : FittedState).records ≠ []) ∧
    (∀ r ∈ (⟨fun _ => 2, [(⟨fun _ => 2, 1⟩ : ResidualRecord)]⟩ : FittedState).records,
      0 ≤ r.score) ∧
    ((intervalBounds "base" Option.none
          (⟨fun _ => 2, [(⟨fun _ => 2, 1⟩ : ResidualRecord)]⟩ : FittedState) 0 (1/10)).1
        ≤ pointPrediction Option.none
          (⟨fun _ => 2, [(⟨fun _ => 2, 1⟩ : ResidualRecord)]⟩ : FittedState) 0 ∧
      pointPrediction Option.none
          (⟨fun _ => 2, [(⟨fun _ => 2, 1⟩ : ResidualRecord)]⟩ : FittedState) 0
        ≤ (intervalBounds "base" Option.none
          (⟨fun _ => 2, [(⟨fun _ => 2, 1⟩ : ResidualRecord)]⟩ : FittedState) 0 (1/10)).2) := by
  refine ⟨by simp, ?_, ?_⟩
  · intro r hr
    rw [List.mem_singleton.mp hr]
    norm_num
  · exact point_within_interval "base" Option.none
      (⟨fun _ => 2, [(⟨fun _ => 2, 1⟩ : ResidualRecord)]⟩ : FittedState) 0 (1/10)
      (by simp) (fun r hr => by rw [List.mem_singleton.mp hr]; norm_num)
      (Or.inr (Or.inl rfl))

theorem quantileL_singleton (q c : ℚ) : quantileL q [c] = c := by
  simp [quantileL, qIdxL, sortQ, List.insertionSort, List.orderedInsert]

theorem quantileH_singleton (q c : ℚ) : quantileH q [c] = c := by
  simp [quantileH, qIdxH, sortQ, List.insertionSort, List.orderedInsert]

/-- C1 counterexample: under the valid configuration method "plus" with no
aggregation function, a fitted state whose single full-data estimator
predicts 0 while the fold estimator predicts 10 with zero residual issues
the interval [10, 10], and the returned point prediction 0 lies outside
it — the containment claimed for every valid combination fails. -/
theorem point_within_interval_counterexample :
    validMethod "plus" = true ∧ validAggFunction Option.none = true ∧
    ¬ ((intervalBounds "plus" Option.none
          (⟨fun _ => 0, [(⟨fun _ => 10, 0⟩ : ResidualRecord)]⟩ : FittedState) 0 (1/10)).1
        ≤ pointPrediction Option.none
          (⟨fun _ => 0, [(⟨fun _ => 10, 0⟩ : ResidualRecord)]⟩ : FittedState) 0) := by
  refine ⟨by decide, by decide, ?_⟩
  have hlow : (⟨fun _ => 0, [(⟨fun _ => 10, 0⟩ : ResidualRecord)]⟩ : FittedState).lowCands 0
      = [10] := by
    simp [FittedState.lowCands]
  rw [intervalBounds_plus]
  dsimp only
  rw [hlow]
  rw [quantileL_singleton]
  rw [show pointPrediction Option.none
      (⟨fun _ => 0, [(⟨fun _ => 10, 0⟩ : ResidualRecord)]⟩ : FittedState) 0 = 0 from rfl]
  norm_num

end Mapie
